import Mathlib

/-
Shallow embedding of src/src/zone.c (msgpack zone / arena allocator).

Modelling conventions:
* `size_t` values are `Nat`; arithmetic that can wrap in C is taken modulo
  `sizeTMod = 2 ^ 64` at exactly the spots where the C code can overflow.
* Chunk memory is an explicit heap: a list of `(cid, Chunk)` pairs, where a
  `cid : Nat` stands for the address returned by `malloc`.  `free` removes the
  pair; a read or write through a pointer whose block is no longer present is
  a `Fault.useAfterFree`, and writing through a NULL pointer is
  `Fault.nullDeref`.  Loops that walk `next` pointers take explicit fuel and
  report `Fault.noFuel` when it runs out (this never happens on well-formed
  chains given enough fuel).
* `malloc`/`realloc` are modelled by oracles: an `Option Nat` giving the fresh
  block id on success (`none` = allocation failure), or a `Bool` for realloc.
  Uninitialized memory coming from `realloc` growth is an arbitrary `junk`
  parameter.
* A raw pointer into a chunk's payload is a pair `(cid, offset)`.
-/

/-- Modulus of `size_t` arithmetic (LP64). -/
def sizeTMod : Nat := 2 ^ 64

/-- Faults: undefined behaviour observable in the heap model, plus fuel
exhaustion of a modelled loop. -/
inductive Fault where
  | nullDeref
  | useAfterFree
  | noFuel
deriving DecidableEq, Repr

/-- `struct msgpack_zone_chunk`: the header holds only the `next` pointer
(`none` = NULL); `size` records the payload size of the block
(`malloc(sizeof(msgpack_zone_chunk) + size)`). -/
structure Chunk where
  size : Nat
  next : Option Nat
deriving DecidableEq, Repr

/-- The chunk heap: blocks currently allocated, keyed by block id. -/
abbrev Heap := List (Nat × Chunk)

/-- Read the block with id `cid` (none = the block is not allocated). -/
def heapFind (h : Heap) (cid : Nat) : Option Chunk :=
  (h.find? fun p => p.1 == cid).map Prod.snd

/-- `free(cid)`: remove the block from the heap. -/
def heapFree (h : Heap) (cid : Nat) : Heap :=
  h.filter fun p => p.1 != cid

/-- Store `nx` into the `next` field of block `cid` (a write to one memory
block: the first — in well-formed heaps the only — entry with that id). -/
def heapSetNext : Heap → Nat → Option Nat → Heap
  | [], _, _ => []
  | p :: t, cid, nx =>
      if p.1 == cid then (p.1, { p.2 with next := nx }) :: t
      else p :: heapSetNext t cid nx

/-- `msgpack_zone_chunk_list`: `head` is the id of the newest chunk, `free`
the bytes left in it, `ptr` the bump cursor as a (block id, offset) pair. -/
structure ChunkListS where
  head : Nat
  free : Nat
  ptr : Nat × Nat
deriving DecidableEq, Repr

/-- `msgpack_zone_finalizer`: function pointer and opaque argument, both
modelled as plain identifiers. -/
structure Finalizer where
  func : Nat
  data : Nat
deriving DecidableEq, Repr

/-- `msgpack_zone_finalizer_array`: `storage` models the allocated buffer
(`end - array` slots, i.e. `storage.length` is the capacity); `tail` is the
logical length (`tail - array` in C). -/
structure FinArr where
  storage : List Finalizer
  tail : Nat
deriving DecidableEq, Repr

/-- `msgpack_zone`: chunk list, baseline chunk size, finalizer array.  The
chunk heap is passed around separately (it is global memory, not part of the
zone struct). -/
structure ZoneS where
  cl : ChunkListS
  chunk_size : Nat
  fa : FinArr
deriving DecidableEq, Repr

/-- `init_chunk_list`: allocate one chunk of payload `chunk_size` (the malloc
oracle `mres` gives the fresh block id, `none` = failure, in which case the
function returns 0 and touches nothing). -/
def init_chunk_list (heap : Heap) (mres : Option Nat) (chunk_size : Nat) :
    Option (Heap × ChunkListS) :=
  match mres with
  | none => none
  | some cid =>
      some ((cid, ⟨chunk_size, none⟩) :: heap,
            ⟨cid, chunk_size, (cid, 0)⟩)

/-- The `while(1)` loop of `destroy_chunk_list`: free every chunk on the
chain starting at `c`. -/
def destroyLoop (fuel : Nat) (h : Heap) (c : Nat) : Except Fault Heap :=
  match fuel with
  | 0 => .error .noFuel
  | fuel + 1 =>
      match heapFind h c with
      | none => .error .useAfterFree
      | some ch =>
          match ch.next with
          | some n => destroyLoop fuel (heapFree h c) n
          | none => .ok (heapFree h c)

/-- The `while(1)` loop of `clear_chunk_list`: free every chunk on the chain
except the last (oldest) one; returns the heap after the loop.  Note the loop
does not report which chunk survived — and the C code that follows it never
asks. -/
def clearLoop (fuel : Nat) (h : Heap) (c : Nat) : Except Fault Heap :=
  match fuel with
  | 0 => .error .noFuel
  | fuel + 1 =>
      match heapFind h c with
      | none => .error .useAfterFree
      | some ch =>
          match ch.next with
          | some n => clearLoop fuel (heapFree h c) n
          | none => .ok h

/-- `clear_chunk_list`, exactly as in the source: run the loop, then
`cl->head->next = NULL; cl->free = chunk_size; cl->ptr = head payload start`.
`cl->head` itself is never reassigned, so the write through it is a
use-after-free whenever the loop freed the head chunk. -/
def clear_chunk_list (fuel : Nat) (heap : Heap) (cl : ChunkListS)
    (chunk_size : Nat) : Except Fault (Heap × ChunkListS) :=
  match clearLoop fuel heap cl.head with
  | .error e => .error e
  | .ok h =>
      match heapFind h cl.head with
      | none => .error .useAfterFree
      | some _ =>
          .ok (heapSetNext h cl.head none,
               ⟨cl.head, chunk_size, (cl.head, 0)⟩)

/-- One mod-2^64 doubling step, iterated: `iterDouble sz k` is the value of
`sz` after `k` executions of `sz *= 2`. -/
def iterDouble (sz : Nat) : Nat → Nat
  | 0 => sz
  | k + 1 => iterDouble (sz * 2 % sizeTMod) k

/-- The `while(sz < size) { sz *= 2; }` loop of `msgpack_zone_malloc_expand`,
with explicit fuel (the C loop can diverge, e.g. when `sz = 0 < size`). -/
def expandLoop (size : Nat) : Nat → Nat → Option Nat
  | 0, sz => if sz < size then none else some sz
  | fuel + 1, sz =>
      if sz < size then expandLoop size fuel (sz * 2 % sizeTMod) else some sz

/-- `msgpack_zone_malloc_expand`, exactly as in the source: double the size,
`malloc` the chunk (oracle `mres`), and then — with no NULL check — write
`chunk->next = cl->head` and push it.  When `malloc` fails the write goes
through a NULL pointer. -/
def msgpack_zone_malloc_expand (fuel : Nat) (heap : Heap) (z : ZoneS)
    (size : Nat) (mres : Option Nat) :
    Except Fault (Heap × ZoneS × (Nat × Nat)) :=
  match expandLoop size fuel z.chunk_size with
  | none => .error .noFuel
  | some sz =>
      match mres with
      | none => .error .nullDeref
      | some cid =>
          .ok ((cid, ⟨sz, some z.cl.head⟩) :: heap,
               { z with cl := ⟨cid, sz - size, (cid, size)⟩ },
               (cid, 0))

/-- `init_finalizer_array`: `tail = end = array = NULL`. -/
def init_finalizer_array : FinArr := ⟨[], 0⟩

/-- The decrementing loop of `call_finalizer_array`:
`for(fin = tail; fin != array; --fin) (*(fin-1)->func)((fin-1)->data);`
returns the sequence of invocations (callback, argument), first call first.
A read past the buffer (never reached in well-formed states) yields the
arbitrary entry `⟨0, 0⟩`. -/
def callLoop (storage : List Finalizer) : Nat → List Finalizer
  | 0 => []
  | n + 1 => storage.getD n ⟨0, 0⟩ :: callLoop storage n

/-- `call_finalizer_array`: invoke entries `tail-1, …, 0` in that order. -/
def call_finalizer_array (fa : FinArr) : List Finalizer :=
  callLoop fa.storage fa.tail

/-- `destroy_finalizer_array`: run the callbacks (the buffer is then freed;
the array object is dead afterwards, so only the invocation list remains). -/
def destroy_finalizer_array (fa : FinArr) : List Finalizer :=
  call_finalizer_array fa

/-- `clear_finalizer_array`: run the callbacks, then `tail = array`. -/
def clear_finalizer_array (fa : FinArr) : List Finalizer × FinArr :=
  (call_finalizer_array fa, { fa with tail := 0 })

/-- `sizeof(msgpack_zone_finalizer)` on LP64: two pointers. -/
def sizeofFinalizer : Nat := 16

/-- `msgpack_zone_push_finalizer_expand`, as in the source: `nused` is
`end - array` (the CAPACITY, not the logical length); grow to
`72/sizeof(finalizer)` slots (or 8 if the struct is large) when empty, else
double; `realloc` (oracle `rok`, new slots filled with the arbitrary `junk`),
on failure return 0 with nothing changed; on success write the new entry at
index `nused` and set `tail = nused + 1`. -/
def msgpack_zone_push_finalizer_expand (fa : FinArr) (f : Finalizer)
    (rok : Bool) (junk : Finalizer) : Option FinArr :=
  let nused := fa.storage.length
  let nnext :=
    if nused = 0 then
      if sizeofFinalizer < 72 / 2 then 72 / sizeofFinalizer else 8
    else nused * 2
  if rok then
    some ⟨(fa.storage ++ List.replicate (nnext - nused) junk).set nused f,
          nused + 1⟩
  else none

/-- Modelled from the spec: the fast path of `register_finalizer`
(`msgpack_zone_push_finalizer`, declared in msgpack/zone.h which is not part
of src/) — §4.2 `append`: when the array is not full, write the new entry at
index `length` and increment `length`; when `length == capacity`, delegate to
the growth path `msgpack_zone_push_finalizer_expand`. -/
def msgpack_zone_push_finalizer (fa : FinArr) (f : Finalizer)
    (rok : Bool) (junk : Finalizer) : Option FinArr :=
  if fa.tail < fa.storage.length then
    some ⟨fa.storage.set fa.tail f, fa.tail + 1⟩
  else
    msgpack_zone_push_finalizer_expand fa f rok junk

/-- A sequence of successful `register_finalizer` calls (a successful call is
exactly one whose reallocation, if any, succeeded, so the realloc oracle is
`true` throughout; the uninitialized-slot contents `junk` stay arbitrary). -/
def registerAll (junk : Finalizer) (fa : FinArr) : List Finalizer → Option FinArr
  | [] => some fa
  | f :: fs =>
      match msgpack_zone_push_finalizer fa f true junk with
      | none => none
      | some fa' => registerAll junk fa' fs

/-- `msgpack_zone_is_empty`:
`cl->free == zone->chunk_size && cl->head->next == NULL && fa->tail == fa->array`,
with C short-circuit evaluation: `cl->head->next` is only read when the first
conjunct holds (dereferencing `head` faults if the block was freed). -/
def msgpack_zone_is_empty (heap : Heap) (z : ZoneS) : Except Fault Bool :=
  if z.cl.free == z.chunk_size then
    match heapFind heap z.cl.head with
    | none => .error .useAfterFree
    | some ch => .ok (ch.next == none && z.fa.tail == 0)
  else
    .ok false

/-- `msgpack_zone_destroy`: run the finalizers (and free their buffer), then
free every chunk.  Result: invocation list, and the heap after. -/
def msgpack_zone_destroy (fuel : Nat) (heap : Heap) (z : ZoneS) :
    List Finalizer × Except Fault Heap :=
  (destroy_finalizer_array z.fa, destroyLoop fuel heap z.cl.head)

/-- `msgpack_zone_clear`: run the finalizers and reset their array, then
`clear_chunk_list`.  Result: invocation list, and the new heap/zone. -/
def msgpack_zone_clear (fuel : Nat) (heap : Heap) (z : ZoneS) :
    List Finalizer × Except Fault (Heap × ZoneS) :=
  let p := clear_finalizer_array z.fa
  (p.1,
   match clear_chunk_list fuel heap z.cl z.chunk_size with
   | .error e => .error e
   | .ok (h, cl) => .ok (h, ⟨cl, z.chunk_size, p.2⟩))

/-- `msgpack_zone_init`: set `chunk_size`, init the chunk list (failing if it
fails), init the finalizer array. -/
def msgpack_zone_init (heap : Heap) (mres : Option Nat) (chunk_size : Nat) :
    Option (Heap × ZoneS) :=
  match init_chunk_list heap mres chunk_size with
  | none => none
  | some (h, cl) => some (h, ⟨cl, chunk_size, init_finalizer_array⟩)

/-- `msgpack_zone_free`: `if(zone == NULL) return;` else destroy and free the
zone block.  Result: finalizer invocations, heap after, and whether the zone
block itself was released. -/
def msgpack_zone_free (fuel : Nat) (heap : Heap) (zp : Option ZoneS) :
    List Finalizer × Except Fault Heap × Bool :=
  match zp with
  | none => ([], .ok heap, false)
  | some z =>
      let d := msgpack_zone_destroy fuel heap z
      (d.1, d.2, true)

/-- Modelled from the spec: `msgpack_zone_malloc` (the allocate facade,
declared in msgpack/zone.h which is not part of src/) — §4.1: if
`size ≤ free`, return the cursor, advance it by `size` and decrement `free`
(fast path); otherwise the slow path `msgpack_zone_malloc_expand`. -/
def msgpack_zone_malloc (fuel : Nat) (heap : Heap) (z : ZoneS)
    (size : Nat) (mres : Option Nat) :
    Except Fault (Heap × ZoneS × (Nat × Nat)) :=
  if size ≤ z.cl.free then
    .ok (heap,
         { z with cl := { z.cl with
                            free := z.cl.free - size,
                            ptr := (z.cl.ptr.1, z.cl.ptr.2 + size) } },
         z.cl.ptr)
  else
    msgpack_zone_malloc_expand fuel heap z size mres

/-- The logical contents of a finalizer array: the registered,
not-yet-consumed entries, oldest first. -/
def finEntries (fa : FinArr) : List Finalizer :=
  fa.storage.take fa.tail

/-- Well-formedness of a finalizer array: the logical length does not exceed
the capacity (`tail ≤ end` in C). -/
def finWF (fa : FinArr) : Prop :=
  fa.tail ≤ fa.storage.length

/-- The chunk-list invariant of spec §3: the cursor points into the head
chunk's payload (or exactly at its end) and `free` is the byte count from the
cursor to the payload's end — as a boolean check over the heap model. -/
def chunkListInvB (heap : Heap) (cl : ChunkListS) : Bool :=
  match heapFind heap cl.head with
  | none => false
  | some ch =>
      cl.ptr.1 == cl.head && decide (cl.ptr.2 ≤ ch.size) &&
        cl.free == ch.size - cl.ptr.2

/-- Heap of the freshly initialized example zone `zA` (baseline 8). -/
def heapA : Heap := [(0, ⟨8, none⟩)]

/-- Example zone right after `msgpack_zone_init` with `chunk_size = 8`. -/
def zA : ZoneS := ⟨⟨0, 8, (0, 0)⟩, 8, ⟨[], 0⟩⟩

/-- Finalizer array after three successful registrations
(⟨1,10⟩, ⟨2,20⟩, ⟨3,30⟩, with junk ⟨9,90⟩ in the uninitialized slot). -/
def faB : FinArr := ⟨[⟨1, 10⟩, ⟨2, 20⟩, ⟨3, 30⟩, ⟨9, 90⟩], 4 - 1⟩

/-- Example zone: pristine chunk list, finalizer array `faB`. -/
def zB : ZoneS := ⟨⟨0, 8, (0, 0)⟩, 8, faB⟩

/-- Example zone: one registered finalizer, 3 bytes consumed from the
original chunk (single-chunk chain, so `clear` works on it). -/
def zC : ZoneS := ⟨⟨0, 5, (0, 3)⟩, 8, ⟨[⟨1, 10⟩, ⟨9, 90⟩, ⟨9, 90⟩, ⟨9, 90⟩], 1⟩⟩

/-- The zone `zC` after one `msgpack_zone_clear`. -/
def zC' : ZoneS := ⟨⟨0, 8, (0, 0)⟩, 8, ⟨[⟨1, 10⟩, ⟨9, 90⟩, ⟨9, 90⟩, ⟨9, 90⟩], 0⟩⟩

/-- A finalizer array with capacity 4 and logical length 0 — exactly the
state `clear_finalizer_array` leaves behind once the array has ever grown. -/
def faD : FinArr := ⟨List.replicate 4 ⟨0, 0⟩, 0⟩

/-! ### Generic list/heap lemmas -/

theorem zlTakeSetSucc {α : Type} (l : List α) (n : Nat) (a : α)
    (h : n < l.length) : (l.set n a).take (n + 1) = l.take n ++ [a] := by
  induction l generalizing n with
  | nil => simp at h
  | cons hd tl ih =>
      cases n with
      | zero => simp
      | succ m =>
          simp only [List.set, List.take, List.cons_append, List.cons.injEq,
            true_and]
          exact ih m (by simpa using h)

theorem zlGetSetSelf {α : Type} (l : List α) (n : Nat) (a : α)
    (h : n < l.length) : (l.set n a).get? n = some a := by
  induction l generalizing n with
  | nil => simp at h
  | cons hd tl ih =>
      cases n with
      | zero => rfl
      | succ m => exact ih m (by simpa using h)

theorem zlGetSetNe {α : Type} (l : List α) (n i : Nat) (a : α)
    (h : i ≠ n) : (l.set n a).get? i = l.get? i := by
  induction l generalizing n i with
  | nil => rfl
  | cons hd tl ih =>
      cases n with
      | zero =>
          cases i with
          | zero => exact absurd rfl h
          | succ j => rfl
      | succ m =>
          cases i with
          | zero => rfl
          | succ j => exact ih m j (fun e => h (by rw [e]))

theorem zlGetAppendLeft {α : Type} (l₁ l₂ : List α) (i : Nat)
    (h : i < l₁.length) : (l₁ ++ l₂).get? i = l₁.get? i := by
  induction l₁ generalizing i with
  | nil => simp at h
  | cons hd tl ih =>
      cases i with
      | zero => rfl
      | succ j => exact ih j (by simpa using h)

theorem zlTakeAppendLen {α : Type} (l₁ l₂ : List α) :
    (l₁ ++ l₂).take l₁.length = l₁ := by
  induction l₁ with
  | nil => rfl
  | cons hd tl ih => simp [ih]

theorem zlTakeGetDSucc {α : Type} (d : α) (l : List α) (n : Nat)
    (h : n < l.length) : l.take (n + 1) = l.take n ++ [l.getD n d] := by
  induction l generalizing n with
  | nil => simp at h
  | cons hd tl ih =>
      cases n with
      | zero => simp [List.getD]
      | succ m =>
          have := ih m (by simpa using h)
          simp only [List.take, List.cons_append, List.cons.injEq, true_and]
          simpa [List.getD] using this

theorem zlCallLoopTake (s : List Finalizer) (n : Nat) (h : n ≤ s.length) :
    callLoop s n = (s.take n).reverse := by
  induction n with
  | zero => rfl
  | succ m ih =>
      have hm : m < s.length := Nat.lt_of_lt_of_le (Nat.lt_succ_self m) h
      calc callLoop s (m + 1)
          = s.getD m ⟨0, 0⟩ :: callLoop s m := rfl
        _ = s.getD m ⟨0, 0⟩ :: (s.take m).reverse := by
            rw [ih (Nat.le_of_lt hm)]
        _ = (s.take (m + 1)).reverse := by
            rw [zlTakeGetDSucc ⟨0, 0⟩ s m hm, List.reverse_append]
            rfl

theorem zlHeapFindSetNext (h : Heap) (c : Nat) (v : Option Nat) :
    heapFind (heapSetNext h c v) c =
      (heapFind h c).map (fun ch => { ch with next := v }) := by
  induction h with
  | nil => rfl
  | cons p t ih =>
      cases hb : (p.1 == c) with
      | true =>
          simp [heapFind, heapSetNext, List.find?, hb]
      | false =>
          simp only [heapSetNext, hb, Bool.false_eq_true, if_false]
          simp only [heapFind, List.find?, hb]
          exact ih

theorem zlHeapSetNextIdem (h : Heap) (c : Nat) (v : Option Nat) :
    heapSetNext (heapSetNext h c v) c v = heapSetNext h c v := by
  induction h with
  | nil => rfl
  | cons p t ih =>
      cases hb : (p.1 == c) with
      | true =>
          simp [heapSetNext, hb]
      | false =>
          simp only [heapSetNext, hb, Bool.false_eq_true, if_false,
            List.cons.injEq, true_and]
          exact ih

/-! ### Lemmas about the size-doubling loop -/

theorem expandLoopGe (size : Nat) :
    ∀ fuel sz s, expandLoop size fuel sz = some s → size ≤ s := by
  intro fuel
  induction fuel with
  | zero =>
      intro sz s h
      by_cases hlt : sz < size
      · simp [expandLoop, hlt] at h
      · simp [expandLoop, hlt] at h
        exact h ▸ Nat.le_of_not_lt hlt
  | succ f ih =>
      intro sz s h
      by_cases hlt : sz < size
      · simp only [expandLoop, hlt, if_true] at h
        exact ih _ _ h
      · simp [expandLoop, hlt] at h
        exact h ▸ Nat.le_of_not_lt hlt

theorem expandLoopIter (size : Nat) :
    ∀ fuel sz s, expandLoop size fuel sz = some s →
      ∃ k, s = iterDouble sz k ∧ size ≤ s ∧
        ∀ j, j < k → iterDouble sz j < size := by
  intro fuel
  induction fuel with
  | zero =>
      intro sz s h
      by_cases hlt : sz < size
      · simp [expandLoop, hlt] at h
      · simp [expandLoop, hlt] at h
        exact ⟨0, h.symm, h ▸ Nat.le_of_not_lt hlt, fun j hj => by omega⟩
  | succ f ih =>
      intro sz s h
      by_cases hlt : sz < size
      · simp only [expandLoop, hlt, if_true] at h
        obtain ⟨k, hk1, hk2, hk3⟩ := ih _ _ h
        refine ⟨k + 1, hk1, hk2, ?_⟩
        intro j hj
        cases j with
        | zero => exact hlt
        | succ j' => exact hk3 j' (Nat.lt_of_succ_lt_succ hj)
      · simp [expandLoop, hlt] at h
        exact ⟨0, h.symm, h ▸ Nat.le_of_not_lt hlt, fun j hj => by omega⟩

theorem expandLoopTerm (size : Nat) :
    ∀ k sz, size ≤ sz * 2 ^ k → sz * 2 ^ k < sizeTMod →
      ∃ s, expandLoop size k sz = some s := by
  intro k
  induction k with
  | zero =>
      intro sz hle _
      have : ¬ sz < size := Nat.not_lt.mpr (by simpa using hle)
      exact ⟨sz, by simp [expandLoop, this]⟩
  | succ k ih =>
      intro sz hle hlt
      by_cases h : sz < size
      · have hre : sz * 2 * 2 ^ k = sz * 2 ^ (k + 1) := by ring
        have h2 : sz * 2 ≤ sz * 2 * 2 ^ k :=
          Nat.le_mul_of_pos_right _ (Nat.pos_pow_of_pos k (by omega))
        have hlt2 : sz * 2 < sizeTMod :=
          Nat.lt_of_le_of_lt (hre ▸ h2) hlt
        have hmod : sz * 2 % sizeTMod = sz * 2 := Nat.mod_eq_of_lt hlt2
        obtain ⟨s, hs⟩ := ih (sz * 2) (hre ▸ hle) (hre ▸ hlt)
        refine ⟨s, ?_⟩
        simp only [expandLoop, h, if_true, hmod]
        exact hs
      · exact ⟨sz, by simp [expandLoop, h]⟩

theorem expandLoopZeroBase (size : Nat) (hs : 0 < size) :
    ∀ fuel, expandLoop size fuel 0 = none := by
  intro fuel
  induction fuel with
  | zero => simp [expandLoop, hs]
  | succ f ih =>
      simp only [expandLoop, hs, if_true]
      simp only [Nat.zero_mul, Nat.zero_mod]
      exact ih

/-! ### Lemmas about the finalizer array -/

theorem finPushEntries (fa : FinArr) (f junk : Finalizer) (fa' : FinArr)
    (hwf : finWF fa)
    (h : msgpack_zone_push_finalizer fa f true junk = some fa') :
    finEntries fa' = finEntries fa ++ [f] ∧ finWF fa' ∧ 0 < fa'.tail := by
  by_cases hfast : fa.tail < fa.storage.length
  · simp only [msgpack_zone_push_finalizer, hfast, if_true,
      Option.some.injEq] at h
    subst h
    refine ⟨?_, ?_, Nat.succ_pos _⟩
    · exact zlTakeSetSucc fa.storage fa.tail f hfast
    · simp only [finWF, List.length_set]
      exact hfast
  · have htail : fa.tail = fa.storage.length := Nat.le_antisymm hwf
      (Nat.le_of_not_lt hfast)
    simp only [msgpack_zone_push_finalizer, hfast, if_false,
      msgpack_zone_push_finalizer_expand, if_true, Option.some.injEq] at h
    set len := fa.storage.length with hlen
    set nnext := if len = 0 then
        if sizeofFinalizer < 72 / 2 then 72 / sizeofFinalizer else 8
      else len * 2 with hnnext
    have hlt : len < nnext := by
      by_cases h0 : len = 0
      · simp [hnnext, h0, sizeofFinalizer]
      · simp only [hnnext, h0, if_false]
        omega
    have hplen : (fa.storage ++ List.replicate (nnext - len) junk).length
        = nnext := by
      simp [← hlen]
      omega
    subst h
    refine ⟨?_, ?_, Nat.succ_pos _⟩
    · have h1 : (fa.storage ++ List.replicate (nnext - len) junk).take len
          = fa.storage := by
        have h0 := zlTakeAppendLen fa.storage
          (List.replicate (nnext - len) junk)
        rw [← hlen] at h0
        exact h0
      have h2 := zlTakeSetSucc
        (fa.storage ++ List.replicate (nnext - len) junk) len f
        (by rw [hplen]; exact hlt)
      simp only [finEntries, htail, h2, h1]
      simp [← hlen]
    · simp only [finWF, List.length_set, hplen]
      exact hlt

theorem finRegisterAllEntries (junk : Finalizer) :
    ∀ regs (fa fa' : FinArr), finWF fa →
      registerAll junk fa regs = some fa' →
      finEntries fa' = finEntries fa ++ regs ∧ finWF fa' := by
  intro regs
  induction regs with
  | nil =>
      intro fa fa' hwf h
      simp only [registerAll, Option.some.injEq] at h
      subst h
      exact ⟨(List.append_nil _).symm, hwf⟩
  | cons f fs ih =>
      intro fa fa' hwf h
      cases hp : msgpack_zone_push_finalizer fa f true junk with
      | none => simp [registerAll, hp] at h
      | some fa₁ =>
          simp only [registerAll, hp] at h
          obtain ⟨he, hwf₁, _⟩ := finPushEntries fa f junk fa₁ hwf hp
          obtain ⟨he', hwf'⟩ := ih fa₁ fa' hwf₁ h
          refine ⟨?_, hwf'⟩
          rw [he', he, List.append_assoc]
          rfl

/-! ### Claim theorems -/

/-- C1: the claim says that when the backing `malloc` inside
`msgpack_zone_malloc_expand` fails, the operation reports OutOfMemory and
leaves the chunk list untouched.  The code has no NULL check: it executes
`chunk->next = cl->head` on the NULL result, a null-pointer dereference —
shown here on a concrete zone (baseline 8, request 20) with a failing
allocator. -/
theorem mallocExpandAllocFailureFaults :
    msgpack_zone_malloc_expand 64 heapA zA 20 none = .error .nullDeref := by
  rfl

/-- C5: the claim says `clear` retains the oldest chunk as the sole chunk and
resets head/cursor to it.  In the code, `clear_chunk_list`'s loop frees every
chunk but the oldest yet `cl->head` is never reassigned, so with a two-chunk
chain (reached from a fresh zone by one slow-path allocation) the trailing
`cl->head->next = NULL` writes through the just-freed newest chunk: a
use-after-free, and head/cursor keep referencing freed memory rather than the
retained oldest chunk. -/
theorem clearChunkListDanglingHead :
    msgpack_zone_init [] (some 0) 8 = some (heapA, zA) ∧
    msgpack_zone_malloc_expand 64 heapA zA 20 (some 1) =
      .ok ([(1, ⟨32, some 0⟩), (0, ⟨8, none⟩)],
           ⟨⟨1, 12, (1, 20)⟩, 8, ⟨[], 0⟩⟩, (1, 0)) ∧
    clear_chunk_list 8 [(1, ⟨32, some 0⟩), (0, ⟨8, none⟩)] ⟨1, 12, (1, 20)⟩ 8 =
      .error .useAfterFree :=
  ⟨rfl, rfl, rfl⟩

/-- C8: the chunk-list invariant (free = bytes from cursor to head-chunk end,
cursor inside the live head chunk) holds after init and after a successful
slow-path allocation, but `clear` breaks it: on a chain of two chunks
(baseline 8, one slow-path allocation of 9 giving a 16-byte head) the clear
loop frees the head chunk while `cl->head` still points at it, so the
operation faults (and would leave `free = 8` with the cursor in a freed
16-byte chunk). -/
theorem chunkListInvariantBrokenByClear :
    chunkListInvB heapA zA.cl = true ∧
    msgpack_zone_malloc_expand 64 heapA zA 9 (some 1) =
      .ok ([(1, ⟨16, some 0⟩), (0, ⟨8, none⟩)],
           ⟨⟨1, 7, (1, 9)⟩, 8, ⟨[], 0⟩⟩, (1, 0)) ∧
    chunkListInvB [(1, ⟨16, some 0⟩), (0, ⟨8, none⟩)] ⟨1, 7, (1, 9)⟩ = true ∧
    clear_chunk_list 8 [(1, ⟨16, some 0⟩), (0, ⟨8, none⟩)] ⟨1, 7, (1, 9)⟩ 8 =
      .error .useAfterFree :=
  ⟨rfl, rfl, rfl, rfl⟩

/-- C10: `msgpack_zone_free` on a NULL zone pointer returns immediately: no
finalizer is invoked, the heap is unchanged (no chunk released) and the zone
block is not freed. -/
theorem zoneFreeNullIsNoop (fuel : Nat) (heap : Heap) :
    msgpack_zone_free fuel heap none = ([], .ok heap, false) := rfl

/-- C9: the doubling loop of `msgpack_zone_malloc_expand` terminates whenever
`chunk_size ≥ 1` and the request does not exceed a representable
`chunk_size * 2 ^ k` (with `k` doublings of fuel it already finishes), and
for `chunk_size = 0` and any positive request it never terminates (no amount
of fuel makes it finish). -/
theorem expandLoopTermination :
    (∀ b size k, 1 ≤ b → size ≤ b * 2 ^ k → b * 2 ^ k < sizeTMod →
        ∃ s, expandLoop size k b = some s) ∧
    (∀ size fuel, 1 ≤ size → expandLoop size fuel 0 = none) := by
  constructor
  · intro b size k _ hle hlt
    exact expandLoopTerm size k b hle hlt
  · intro size fuel hs
    exact expandLoopZeroBase size hs fuel

/-- Witness for C9 at `b = 8, size = 20, k = 2` and `size = 5, fuel = 10`. -/
theorem expandLoopTerminationWitness :
    ((1 ≤ 8 ∧ 20 ≤ 8 * 2 ^ 2 ∧ 8 * 2 ^ 2 < sizeTMod) ∧
      ∃ s, expandLoop 20 2 8 = some s) ∧
    (1 ≤ 5 ∧ expandLoop 5 10 0 = none) :=
  ⟨⟨⟨by decide, by decide, by decide⟩,
    expandLoopTermination.1 8 20 2 (by decide) (by decide) (by decide)⟩,
   ⟨by decide, expandLoopTermination.2 5 10 (by decide)⟩⟩

/-- C3: the slow path, when its backing allocation succeeds: the new chunk's
payload size `s` is the result of doubling `chunk_size` until `s ≥ size`
(`s` is an iterated doubling of `chunk_size`, every earlier iterate being
below `size`), the fresh chunk is pushed with `next` = previous head,
`free = s - size`, the cursor is set to the new payload start plus `size`,
and the payload start is returned. -/
theorem mallocExpandSlowPath (fuel : Nat) (heap : Heap) (z : ZoneS)
    (size s cid : Nat)
    (hs : expandLoop size fuel z.chunk_size = some s) :
    msgpack_zone_malloc_expand fuel heap z size (some cid) =
      .ok ((cid, ⟨s, some z.cl.head⟩) :: heap,
           { z with cl := ⟨cid, s - size, (cid, size)⟩ }, (cid, 0)) ∧
    size ≤ s ∧
    ∃ k, s = iterDouble z.chunk_size k ∧
      ∀ j, j < k → iterDouble z.chunk_size j < size := by
  refine ⟨?_, expandLoopGe size fuel _ s hs, ?_⟩
  · simp [msgpack_zone_malloc_expand, hs]
  · obtain ⟨k, h1, _, h3⟩ := expandLoopIter size fuel _ s hs
    exact ⟨k, h1, h3⟩

/-- Witness for C3: baseline 8, request 20, fresh chunk id 1; `s = 32`. -/
theorem mallocExpandSlowPathWitness :
    expandLoop 20 64 zA.chunk_size = some 32 ∧
    (msgpack_zone_malloc_expand 64 heapA zA 20 (some 1) =
        .ok ((1, ⟨32, some zA.cl.head⟩) :: heapA,
             { zA with cl := ⟨1, 32 - 20, (1, 20)⟩ }, (1, 0)) ∧
      20 ≤ 32 ∧
      ∃ k, 32 = iterDouble zA.chunk_size k ∧
        ∀ j, j < k → iterDouble zA.chunk_size j < 20) :=
  ⟨by decide, mallocExpandSlowPath 64 heapA zA 20 32 1 (by decide)⟩

/-- C2: after `n` successful `register_finalizer(cb_i, arg_i)` calls (in
order `i = 1..n`) starting from the freshly initialized finalizer array, both
`clear()` and `destroy()` produce exactly the invocation sequence
`cb_n, …, cb_1` — the registrations reversed, each exactly once. -/
theorem finalizersRunInReverseOrder (regs : List Finalizer) (junk : Finalizer)
    (fa' : FinArr)
    (h : registerAll junk init_finalizer_array regs = some fa')
    (fuel : Nat) (heap : Heap) (z : ZoneS) (hz : z.fa = fa') :
    (msgpack_zone_clear fuel heap z).1 = regs.reverse ∧
    (msgpack_zone_destroy fuel heap z).1 = regs.reverse := by
  obtain ⟨he, hwf⟩ := finRegisterAllEntries junk regs init_finalizer_array fa'
    (by simp [finWF, init_finalizer_array]) h
  have hent : fa'.storage.take fa'.tail = regs := by
    simpa [finEntries, init_finalizer_array] using he
  have hcall : call_finalizer_array fa' = regs.reverse := by
    rw [call_finalizer_array, zlCallLoopTake fa'.storage fa'.tail hwf, hent]
  constructor
  · simp only [msgpack_zone_clear, clear_finalizer_array, hz]
    exact hcall
  · simp only [msgpack_zone_destroy, destroy_finalizer_array, hz]
    exact hcall

/-- Witness for C2: three finalizers on the zone `zB`. -/
theorem finalizersRunInReverseOrderWitness :
    registerAll ⟨9, 90⟩ init_finalizer_array [⟨1, 10⟩, ⟨2, 20⟩, ⟨3, 30⟩] =
      some faB ∧
    zB.fa = faB ∧
    ((msgpack_zone_clear 8 heapA zB).1 =
        ([⟨1, 10⟩, ⟨2, 20⟩, ⟨3, 30⟩] : List Finalizer).reverse ∧
      (msgpack_zone_destroy 8 heapA zB).1 =
        ([⟨1, 10⟩, ⟨2, 20⟩, ⟨3, 30⟩] : List Finalizer).reverse) :=
  ⟨by decide, rfl,
   finalizersRunInReverseOrder [⟨1, 10⟩, ⟨2, 20⟩, ⟨3, 30⟩] ⟨9, 90⟩ faB
     (by decide) 8 heapA zB rfl⟩

/-- C4 counterexample: on a finalizer array with capacity 4 and logical
length 0 (the state `clear_finalizer_array` leaves once the array has grown),
a successful `msgpack_zone_push_finalizer_expand` does NOT increment the
logical length by one: `nused = fa->end - fa->array` is the capacity, so the
new length jumps to 5, not `0 + 1`. -/
theorem pushFinalizerExpandTailJump :
    (msgpack_zone_push_finalizer_expand faD ⟨7, 70⟩ true ⟨9, 90⟩).map
        FinArr.tail ≠ some (faD.tail + 1) := by
  decide

/-- C4 amended: on reallocation failure `msgpack_zone_push_finalizer_expand`
returns 0 and records nothing (the array is untouched); on success the new
entry is written at index `end - array` (the old CAPACITY, not the logical
length), existing slots are preserved, and the new logical length is
capacity + 1 — which equals "written at the old length, length + 1" exactly
when the array was full (`tail == end`), the only state in which the
in-header fast path ever calls this function. -/
theorem pushFinalizerExpandBehaviour (fa : FinArr) (f junk : Finalizer) :
    msgpack_zone_push_finalizer_expand fa f false junk = none ∧
    ∀ fa', msgpack_zone_push_finalizer_expand fa f true junk = some fa' →
      fa'.tail = fa.storage.length + 1 ∧
      fa'.storage.get? fa.storage.length = some f ∧
      (∀ i, i < fa.storage.length → fa'.storage.get? i = fa.storage.get? i) ∧
      (fa.tail = fa.storage.length →
        finEntries fa' = finEntries fa ++ [f] ∧ fa'.tail = fa.tail + 1) := by
  constructor
  · simp [msgpack_zone_push_finalizer_expand]
  · intro fa' h
    simp only [msgpack_zone_push_finalizer_expand, if_true,
      Option.some.injEq] at h
    set len := fa.storage.length with hlen
    set nnext := if len = 0 then
        if sizeofFinalizer < 72 / 2 then 72 / sizeofFinalizer else 8
      else len * 2 with hnnext
    have hlt : len < nnext := by
      by_cases h0 : len = 0
      · simp [hnnext, h0, sizeofFinalizer]
      · simp only [hnnext, h0, if_false]
        omega
    have hplen : (fa.storage ++ List.replicate (nnext - len) junk).length
        = nnext := by
      simp [← hlen]
      omega
    have hltp : len < (fa.storage ++ List.replicate (nnext - len) junk).length := by
      rw [hplen]; exact hlt
    refine ⟨by rw [← h], ?_, ?_, ?_⟩
    · rw [← h]
      exact zlGetSetSelf _ len f hltp
    · intro i hi
      rw [← h]
      have h1 := zlGetSetNe (fa.storage ++ List.replicate (nnext - len) junk)
        len i f (by omega)
      rw [h1]
      exact zlGetAppendLeft fa.storage _ i hi
    · intro hfull
      have hpush : msgpack_zone_push_finalizer fa f true junk = some fa' := by
        have hnlt : ¬ fa.tail < fa.storage.length := by
          rw [hfull]; exact Nat.lt_irrefl _
        simp only [msgpack_zone_push_finalizer, hnlt, if_false,
          msgpack_zone_push_finalizer_expand, if_true, Option.some.injEq]
        exact h
      obtain ⟨he, _, _⟩ := finPushEntries fa f junk fa'
        (by rw [finWF, hfull]) hpush
      refine ⟨he, ?_⟩
      rw [← h, hfull]

/-- Witness for C4's amended statement: growing the empty array. -/
theorem pushFinalizerExpandBehaviourWitness :
    (msgpack_zone_push_finalizer_expand init_finalizer_array ⟨7, 70⟩ false
        ⟨9, 90⟩ = none) ∧
    (msgpack_zone_push_finalizer_expand init_finalizer_array ⟨7, 70⟩ true
        ⟨9, 90⟩ = some ⟨[⟨7, 70⟩, ⟨9, 90⟩, ⟨9, 90⟩, ⟨9, 90⟩], 1⟩ ∧
      ((⟨[⟨7, 70⟩, ⟨9, 90⟩, ⟨9, 90⟩, ⟨9, 90⟩], 1⟩ : FinArr).tail =
          init_finalizer_array.storage.length + 1 ∧
        (⟨[⟨7, 70⟩, ⟨9, 90⟩, ⟨9, 90⟩, ⟨9, 90⟩], 1⟩ : FinArr).storage.get?
            init_finalizer_array.storage.length = some ⟨7, 70⟩ ∧
        (∀ i, i < init_finalizer_array.storage.length →
          (⟨[⟨7, 70⟩, ⟨9, 90⟩, ⟨9, 90⟩, ⟨9, 90⟩], 1⟩ : FinArr).storage.get? i =
            init_finalizer_array.storage.get? i) ∧
        (init_finalizer_array.tail = init_finalizer_array.storage.length →
          finEntries ⟨[⟨7, 70⟩, ⟨9, 90⟩, ⟨9, 90⟩, ⟨9, 90⟩], 1⟩ =
              finEntries init_finalizer_array ++ [⟨7, 70⟩] ∧
            (⟨[⟨7, 70⟩, ⟨9, 90⟩, ⟨9, 90⟩, ⟨9, 90⟩], 1⟩ : FinArr).tail =
              init_finalizer_array.tail + 1))) :=
  ⟨(pushFinalizerExpandBehaviour init_finalizer_array ⟨7, 70⟩ ⟨9, 90⟩).1,
   by decide,
   (pushFinalizerExpandBehaviour init_finalizer_array ⟨7, 70⟩ ⟨9, 90⟩).2
     ⟨[⟨7, 70⟩, ⟨9, 90⟩, ⟨9, 90⟩, ⟨9, 90⟩], 1⟩ (by decide)⟩

/-- C7: if a `clear()` completes (returns a new state), an immediately
following `clear()` with no intervening allocate/register invokes no
finalizer and returns exactly the same state. -/
theorem clearIsIdempotent (fuel : Nat) (heap : Heap) (z : ZoneS)
    (c1 : List Finalizer) (h' : Heap) (z' : ZoneS)
    (h : msgpack_zone_clear fuel heap z = (c1, .ok (h', z'))) :
    msgpack_zone_clear fuel h' z' = ([], .ok (h', z')) := by
  simp only [msgpack_zone_clear, clear_finalizer_array,
    call_finalizer_array] at h
  cases hcc : clear_chunk_list fuel heap z.cl z.chunk_size with
  | error e =>
      rw [hcc] at h
      simp at h
  | ok pr =>
      obtain ⟨h₁, cl₁⟩ := pr
      rw [hcc] at h
      simp only [Prod.mk.injEq, Except.ok.injEq] at h
      obtain ⟨-, hh', hz'⟩ := h
      simp only [clear_chunk_list] at hcc
      cases hloop : clearLoop fuel heap z.cl.head with
      | error e =>
          simp [hloop] at hcc
      | ok h₀ =>
          simp only [hloop] at hcc
          cases hfind : heapFind h₀ z.cl.head with
          | none =>
              simp [hfind] at hcc
          | some ch =>
              simp only [hfind, Except.ok.injEq, Prod.mk.injEq] at hcc
              obtain ⟨hh₁, hcl₁⟩ := hcc
              cases fuel with
              | zero => simp [clearLoop] at hloop
              | succ f =>
                  subst hz'
                  subst hh'
                  subst hh₁
                  subst hcl₁
                  have hfind2 : heapFind (heapSetNext h₀ z.cl.head none)
                      z.cl.head = some { ch with next := none } := by
                    rw [zlHeapFindSetNext, hfind]
                    rfl
                  simp only [msgpack_zone_clear, clear_finalizer_array,
                    call_finalizer_array, clear_chunk_list, clearLoop,
                    hfind2, zlHeapSetNextIdem]
                  rfl

/-- C6 counterexample: `allocate(0)` on a fresh zone succeeds (fast path,
returning the cursor) yet leaves the zone state unchanged, so `is_empty()`
still returns true after a successful allocate — refuting "false after any
successful allocate". -/
theorem isEmptyTrueAfterZeroSizeAllocate :
    msgpack_zone_malloc 1 heapA zA 0 none = .ok (heapA, zA, (0, 0)) ∧
    msgpack_zone_is_empty heapA zA = .ok true :=
  ⟨rfl, rfl⟩

/-- C6 amended: `is_empty()` is true right after `init`; false after any
successful allocate of NONZERO size (from a state whose head chunk is live
and, if it is the sole chunk, has consumed no more than the baseline); false
after any successful `register_finalizer`; true again right after any
`clear()` that completes; and in general it returns exactly
`free == chunk_size && head->next == NULL && tail == array`. -/
theorem isEmptyCharacterization :
    (∀ (heap : Heap) (mres : Option Nat) (cs : Nat) (h' : Heap) (z : ZoneS),
        msgpack_zone_init heap mres cs = some (h', z) →
        msgpack_zone_is_empty h' z = .ok true) ∧
    (∀ (fuel : Nat) (heap : Heap) (z : ZoneS) (size : Nat)
        (mres : Option Nat) (h' : Heap) (z' : ZoneS) (p : Nat × Nat)
        (ch : Chunk),
        heapFind heap z.cl.head = some ch →
        (ch.next = none → z.cl.free ≤ z.chunk_size) →
        1 ≤ size →
        msgpack_zone_malloc fuel heap z size mres = .ok (h', z', p) →
        msgpack_zone_is_empty h' z' = .ok false) ∧
    (∀ (heap : Heap) (z : ZoneS) (f : Finalizer) (rok : Bool)
        (junk : Finalizer) (fa' : FinArr) (ch : Chunk),
        heapFind heap z.cl.head = some ch →
        msgpack_zone_push_finalizer z.fa f rok junk = some fa' →
        msgpack_zone_is_empty heap { z with fa := fa' } = .ok false) ∧
    (∀ (fuel : Nat) (heap : Heap) (z : ZoneS) (c : List Finalizer)
        (h' : Heap) (z' : ZoneS),
        msgpack_zone_clear fuel heap z = (c, .ok (h', z')) →
        msgpack_zone_is_empty h' z' = .ok true) ∧
    (∀ (heap : Heap) (z : ZoneS) (ch : Chunk),
        heapFind heap z.cl.head = some ch →
        msgpack_zone_is_empty heap z =
          .ok ((z.cl.free == z.chunk_size) && (ch.next == none) &&
               (z.fa.tail == 0))) := by
  refine ⟨?_, ?_, ?_, ?_, ?_⟩
  · intro heap mres cs h' z h
    cases mres with
    | none => simp [msgpack_zone_init, init_chunk_list] at h
    | some cid =>
        simp only [msgpack_zone_init, init_chunk_list, Option.some.injEq,
          Prod.mk.injEq] at h
        obtain ⟨hh, hz⟩ := h
        subst hh
        subst hz
        simp [msgpack_zone_is_empty, heapFind, init_finalizer_array]
  · intro fuel heap z size mres h' z' p ch hf hbound hsz h
    by_cases hfast : size ≤ z.cl.free
    · simp only [msgpack_zone_malloc, hfast, if_true, Except.ok.injEq,
        Prod.mk.injEq] at h
      obtain ⟨hh, hz, hp⟩ := h
      subst hh
      subst hz
      by_cases heq : z.cl.free - size = z.chunk_size
      · have hnext : ch.next ≠ none := by
          intro hn
          have := hbound hn
          omega
        obtain ⟨nx, hnx⟩ : ∃ nx, ch.next = some nx := by
          cases hcn : ch.next with
          | none => exact absurd hcn hnext
          | some nx => exact ⟨nx, rfl⟩
        simp [msgpack_zone_is_empty, heq, hf, hnx]
      · simp [msgpack_zone_is_empty, heq]
    · simp only [msgpack_zone_malloc, hfast, if_false,
        msgpack_zone_malloc_expand] at h
      cases hexp : expandLoop size fuel z.chunk_size with
      | none => simp [hexp] at h
      | some sz =>
          simp only [hexp] at h
          cases mres with
          | none => simp at h
          | some cid =>
              simp only [Except.ok.injEq, Prod.mk.injEq] at h
              obtain ⟨hh, hz, hp⟩ := h
              subst hh
              subst hz
              by_cases heq : sz - size = z.chunk_size
              · simp [msgpack_zone_is_empty, heq, heapFind]
              · simp [msgpack_zone_is_empty, heq]
  · intro heap z f rok junk fa' ch hf hpush
    have htail : ∃ m, fa'.tail = m + 1 := by
      by_cases hfast : z.fa.tail < z.fa.storage.length
      · simp only [msgpack_zone_push_finalizer, hfast, if_true,
          Option.some.injEq] at hpush
        exact ⟨z.fa.tail, by rw [← hpush]⟩
      · simp only [msgpack_zone_push_finalizer, hfast, if_false,
          msgpack_zone_push_finalizer_expand] at hpush
        cases rok with
        | false => simp at hpush
        | true =>
            simp only [if_true, Option.some.injEq] at hpush
            exact ⟨z.fa.storage.length, by rw [← hpush]⟩
    obtain ⟨m, hm⟩ := htail
    have hbf : (fa'.tail == 0) = false := by
      rw [hm]
      simp
    by_cases heq : z.cl.free = z.chunk_size
    · simp [msgpack_zone_is_empty, heq, hf, hbf]
    · simp [msgpack_zone_is_empty, heq]
  · intro fuel heap z c h' z' h
    simp only [msgpack_zone_clear, clear_finalizer_array,
      call_finalizer_array] at h
    cases hcc : clear_chunk_list fuel heap z.cl z.chunk_size with
    | error e => simp [hcc] at h
    | ok pr =>
        obtain ⟨h₁, cl₁⟩ := pr
        simp only [hcc, Prod.mk.injEq, Except.ok.injEq] at h
        obtain ⟨-, hh', hz'⟩ := h
        simp only [clear_chunk_list] at hcc
        cases hloop : clearLoop fuel heap z.cl.head with
        | error e => simp [hloop] at hcc
        | ok h₀ =>
            simp only [hloop] at hcc
            cases hfind : heapFind h₀ z.cl.head with
            | none => simp [hfind] at hcc
            | some ch =>
                simp only [hfind, Except.ok.injEq, Prod.mk.injEq] at hcc
                obtain ⟨hh₁, hcl₁⟩ := hcc
                subst hz'
                subst hh'
                subst hh₁
                subst hcl₁
                have hfind2 : heapFind (heapSetNext h₀ z.cl.head none)
                    z.cl.head = some { ch with next := none } := by
                  rw [zlHeapFindSetNext, hfind]
                  rfl
                simp [msgpack_zone_is_empty, hfind2]
  · intro heap z ch hf
    cases hb : (z.cl.free == z.chunk_size) with
    | false => simp [msgpack_zone_is_empty, hb]
    | true => simp [msgpack_zone_is_empty, hb, hf]

/-- Witness for C6's amended statement: a successful allocate of size 3 on
the fresh zone `zA` makes `is_empty` false. -/
theorem isEmptyCharacterizationWitness :
    (heapFind heapA zA.cl.head = some ⟨8, none⟩ ∧
      ((⟨8, none⟩ : Chunk).next = none → zA.cl.free ≤ zA.chunk_size) ∧
      1 ≤ 3 ∧
      msgpack_zone_malloc 1 heapA zA 3 none =
        .ok (heapA, ⟨⟨0, 5, (0, 3)⟩, 8, ⟨[], 0⟩⟩, (0, 0))) ∧
    msgpack_zone_is_empty heapA ⟨⟨0, 5, (0, 3)⟩, 8, ⟨[], 0⟩⟩ = .ok false :=
  ⟨⟨rfl, fun _ => by decide, by decide, rfl⟩,
   isEmptyCharacterization.2.1 1 heapA zA 3 none heapA
     ⟨⟨0, 5, (0, 3)⟩, 8, ⟨[], 0⟩⟩ (0, 0) ⟨8, none⟩ rfl
     (fun _ => by decide) (by decide) rfl⟩

/-- Witness for C7: clearing the already-cleared single-chunk zone `zC'`
invokes nothing and returns the same state. -/
theorem clearIsIdempotentWitness :
    msgpack_zone_clear 2 heapA zC = ([⟨1, 10⟩], .ok (heapA, zC')) ∧
    msgpack_zone_clear 2 heapA zC' = ([], .ok (heapA, zC')) :=
  ⟨rfl, clearIsIdempotent 2 heapA zC [⟨1, 10⟩] heapA zC' rfl⟩
